import Mathlib

/-! # Verification development for the computational-macro teaching repository

This file embeds the two computational kernels of the repository and proves
the specified properties about them:

* the Endogenous Grid Method (EGM) life-cycle solver of Lecture 4
  (`ModelFunctions.solve`; the notebook `Lecture_4.ipynb` documents the
  algorithm, while `ModelFunctions.py` itself is not shipped under `src/`,
  so the solver is modelled from the specification, faithful to the
  notebook's algorithm description), and
* the pay-as-you-go steady-state household solver `solve_paygo` of the
  Lecture 1 exercise notebook (present in `src/`), embedded line by line.

All arithmetic is over `ℝ`; `x ^ (y : ℝ)` is the real power `Real.rpow`,
mirroring floating-point `**` on the mathematical level.
-/

set_option maxRecDepth 8000

namespace CompMacro

noncomputable section

/-- Parameter set of the EGM life-cycle model (the Lecture 4 notebook's `par`
dictionary): horizon `T`, gross return `R`, discount factor `β`, CRRA
risk-aversion `ρ`, per-period labor/eligibility indicator `l` (length `T`),
discretized shock nodes `Y` with quadrature weights `ω`, and the exogenous
savings grid `grid` (the notebook's `𝒢_a`). -/
structure EGMParams where
  T : ℕ
  R : ℝ
  β : ℝ
  ρ : ℝ
  l : List ℝ
  Y : List ℝ
  ω : List ℝ
  grid : List ℝ

/-- Value at `w` of the affine segment through the points `p` and `q`. -/
def interpSeg (p q : ℝ × ℝ) (w : ℝ) : ℝ :=
  p.2 + (w - p.1) * ((q.2 - p.2) / (q.1 - p.1))

/-- Modelled from the spec: the linear-interpolation primitive used by the
solver (the interpolation leaf called by `ModelFunctions.solve`, which is not
under `src/`). Piecewise-linear interpolation over knots sorted by first
component, extrapolating linearly beyond either end with the boundary
segment's slope, as §9 of the spec fixes. -/
def interp : List (ℝ × ℝ) → ℝ → ℝ
  | [], _ => 0
  | [p], _ => p.2
  | p :: q :: tl, w =>
    if w ≤ q.1 ∨ tl = [] then interpSeg p q w else interp (q :: tl) w

/-- Modelled from the spec: expected marginal utility of next-period
consumption, `Σ_s ω_s · C_{t+1}(y_s·l_{t+1} + R·a)^(-ρ)`, where `C_{t+1}` is
evaluated by linear interpolation over the stored next-period policy `pol`
(EGM algorithm steps 2a–2c; `ModelFunctions.py` is not under `src/`). -/
def emu (par : EGMParams) (pol : List (ℝ × ℝ)) (lnext a : ℝ) : ℝ :=
  ((par.Y.zip par.ω).map
    (fun s => s.2 * interp pol (s.1 * lnext + par.R * a) ^ (-par.ρ))).sum

/-- Modelled from the spec: closed-form Euler inversion
`C_t(a) = (β·R·E[C_{t+1}(w')^(-ρ)])^(-1/ρ)` (EGM algorithm step 2d;
`ModelFunctions.py` is not under `src/`). -/
def consum (par : EGMParams) (pol : List (ℝ × ℝ)) (lnext a : ℝ) : ℝ :=
  (par.β * par.R * emu par pol lnext a) ^ (-(1 / par.ρ))

/-- Modelled from the spec: one backward-induction step. For each exogenous
savings point `a` the consumption `C_t(a)` is obtained by Euler inversion and
the endogenous cash-on-hand point is recovered as `W_t(a) = a + C_t(a)`
(step 2e); the constrained-region anchor `(0, 0)` is prepended (step 2f). -/
def egmStep (par : EGMParams) (pol : List (ℝ × ℝ)) (lnext : ℝ) : List (ℝ × ℝ) :=
  (0, 0) :: par.grid.map (fun a =>
    (a + consum par pol lnext a, consum par pol lnext a))

/-- Modelled from the spec: terminal-period policy — the agent consumes all
cash-on-hand, so the endogenous grid is the exogenous savings grid
reinterpreted as cash-on-hand, the policy is the identity on it, and the
constrained-origin anchor `(0, 0)` is prepended so that every stored policy
has length `N + 1` (spec §3, §4.1 step 1). -/
def terminalPolicy (par : EGMParams) : List (ℝ × ℝ) :=
  (0, 0) :: par.grid.map (fun g => (g, g))

/-- Modelled from the spec: backward induction over the list of next-period
labor indicators. `solveAux par [l_{t+1}, …, l_T]` returns the policies of
periods `t, …, T`, earliest period first. -/
def solveAux (par : EGMParams) : List ℝ → List (List (ℝ × ℝ))
  | [] => [terminalPolicy par]
  | lnext :: ls =>
    match solveAux par ls with
    | [] => []
    | next :: rest => egmStep par next lnext :: next :: rest

/-- Modelled from the spec: `ModelFunctions.solve` — the full backward
induction, producing one `(W_t, C_t)` policy per period, period `1` first.
Computing period `t` uses the period-`t+1` indicator, so the recursion
consumes `l₂, …, l_T`, i.e. `par.l.drop 1`. -/
def solve (par : EGMParams) : List (List (ℝ × ℝ)) :=
  solveAux par (par.l.drop 1)

/-- The stored policy of (1-indexed) period `i + 1`: the `i`-th entry of the
solver output. -/
def policyAt (par : EGMParams) (i : ℕ) : List (ℝ × ℝ) :=
  (solve par).getD i []

/-- Modelled from the spec: the solver's error classes (spec §7). -/
inductive SolverError where
  | configurationError
  | domainError
deriving DecidableEq

/-- Modelled from the spec: parameter-set validation (spec §4.1 contract and
§7): `T ≥ 1`, period-indexed sequence lengths matching `T`, matching
quadrature lengths, strictly increasing savings grid, non-negative weights,
and a positive gross return. -/
def validConfig (par : EGMParams) : Prop :=
  1 ≤ par.T ∧ par.l.length = par.T ∧ par.Y.length = par.ω.length ∧
    List.Chain' (· < ·) par.grid ∧ (∀ w ∈ par.ω, 0 ≤ w) ∧ 0 < par.R

/-- The expected-marginal-utility term `β·R·Σ_s ω_s·C_{t+1}(w')^(-ρ)` that the
Euler-inversion domain guard checks. -/
def emuTerm (par : EGMParams) (pol : List (ℝ × ℝ)) (lnext a : ℝ) : ℝ :=
  par.β * par.R * emu par pol lnext a

open Classical in
/-- Modelled from the spec: the Euler-inversion step with the `DomainError`
guard — if the expected-marginal-utility term is non-positive at some grid
point, the step fails (spec §4.1 numeric semantics, §7). -/
def egmStepE (par : EGMParams) (pol : List (ℝ × ℝ)) (lnext : ℝ) :
    Except SolverError (List (ℝ × ℝ)) :=
  if ∀ a ∈ par.grid, 0 < emuTerm par pol lnext a then
    Except.ok (egmStep par pol lnext)
  else Except.error SolverError.domainError

/-- Modelled from the spec: error-threaded backward induction — a failing
step aborts the whole run, so no incomplete policy sequence is ever
returned (spec §7, all-or-nothing). -/
def solveAuxE (par : EGMParams) :
    List ℝ → Except SolverError (List (List (ℝ × ℝ)))
  | [] => Except.ok [terminalPolicy par]
  | lnext :: ls =>
    match solveAuxE par ls with
    | Except.error e => Except.error e
    | Except.ok [] => Except.ok []
    | Except.ok (next :: rest) =>
      match egmStepE par next lnext with
      | Except.error e => Except.error e
      | Except.ok pol => Except.ok (pol :: next :: rest)

open Classical in
/-- Modelled from the spec: the validated entry point — `ConfigurationError`
is raised synchronously, before any period's policy is computed (spec §7). -/
def solveE (par : EGMParams) : Except SolverError (List (List (ℝ × ℝ))) :=
  if validConfig par then solveAuxE par (par.l.drop 1)
  else Except.error SolverError.configurationError

/-- Full §3 Parameter Set invariant of the spec: positive horizon, positive
gross return, discount factor in `(0,1)`, positive risk-aversion, a `{0,1}`
labor indicator of length `T`, a positive shock-node list matching the
non-negative, normalized weight list, and a strictly increasing positive
savings grid. -/
structure ValidParamSet (par : EGMParams) : Prop where
  hT : 1 ≤ par.T
  hR : 0 < par.R
  hβ0 : 0 < par.β
  hβ1 : par.β < 1
  hρ : 0 < par.ρ
  hlLen : par.l.length = par.T
  hl01 : ∀ x ∈ par.l, x = 0 ∨ x = 1
  hYω : par.Y.length = par.ω.length
  hY : ∀ y ∈ par.Y, 0 < y
  hω : ∀ w ∈ par.ω, 0 ≤ w
  hωsum : par.ω.sum = 1
  hgrid : List.Chain' (· < ·) par.grid
  hgridPos : ∀ a ∈ par.grid, 0 < a

/-- Structural invariant of every stored per-period policy: length `N + 1`,
the constrained anchor `(0,0)` at the head, strictly increasing cash-on-hand
grid, non-decreasing consumption, and strictly positive consumption at every
unconstrained point. -/
structure PolicyInv (par : EGMParams) (pol : List (ℝ × ℝ)) : Prop where
  len : pol.length = par.grid.length + 1
  head : pol.head? = some (0, 0)
  chainW : List.Chain' (· < ·) (pol.map Prod.fst)
  chainC : List.Chain' (· ≤ ·) (pol.map Prod.snd)
  posC : ∀ p ∈ pol.tail, 0 < p.2

/-- Parameters of the Lecture 1 exercise PAYGO model (the notebook's `par`
dictionary): horizon `T`, retirement age `R`, capital share `α`, CRRA `ρ`,
depreciation `δ`, patience `β`, labor-supply path `l`, aggregate labor `L`,
and pension contribution rate `τ`. -/
structure PaygoPar where
  T : ℕ
  R : ℕ
  α : ℝ
  ρ : ℝ
  δ : ℝ
  β : ℝ
  l : List ℝ
  L : ℝ
  τ : ℝ

/-- `solve_paygo` STEP 2: interest rate implied by the capital guess,
`r = α(K/L)^(α−1) − δ`. -/
def paygo_r (p : PaygoPar) (K : ℝ) : ℝ := p.α * (K / p.L) ^ (p.α - 1) - p.δ

/-- `solve_paygo` STEP 2: wage implied by the capital guess,
`w = (1−α)(K/L)^α`. -/
def paygo_w (p : PaygoPar) (K : ℝ) : ℝ := (1 - p.α) * (K / p.L) ^ p.α

/-- `solve_paygo` STEP 3: steady-state pension benefit `b = τ·w·Σl/(T−R)`. -/
def paygo_b (p : PaygoPar) (K : ℝ) : ℝ :=
  p.τ * paygo_w p K * p.l.sum / ((p.T : ℝ) - (p.R : ℝ))

/-- `solve_paygo` STEP 3: closed-form first-period consumption `C1` (the
numerator sums discounted after-tax labor income plus benefits, the
denominator the discounted Euler growth factors; `j` is 0-indexed here where
the source's `linspace(1,T,T)` is 1-indexed). -/
def paygo_C1 (p : PaygoPar) (K : ℝ) : ℝ :=
  (((List.range p.T).map (fun j =>
      ((1 - p.τ) * p.l.getD j 0 * paygo_w p K + (1 - p.l.getD j 0) * paygo_b p K) /
        (1 + paygo_r p K) ^ ((j : ℝ) + 1))).sum) /
    (((List.range p.T).map (fun j =>
      (p.β * (1 + paygo_r p K)) ^ ((j : ℝ) / p.ρ) /
        (1 + paygo_r p K) ^ ((j : ℝ) + 1))).sum)

/-- `solve_paygo` STEP 4: the whole consumption path from the Euler equation,
`C[t] = C1·(β(1+r))^(t/ρ)` (`t` 0-indexed as in the source's `np.arange(T)`). -/
def paygo_C (p : PaygoPar) (K : ℝ) (t : ℕ) : ℝ :=
  paygo_C1 p K * (p.β * (1 + paygo_r p K)) ^ ((t : ℝ) / p.ρ)

/-- `solve_paygo` STEP 5: the savings path from the period-by-period budget;
`A[0] = (1−τ)·w·l[0] − C[0]` (no initial wealth), and for `t ≥ 1`
`A[t] = (1−τ)·w·l[t] + (1−l[t])·b + (1+r)·A[t−1] − C[t]`. -/
def paygo_A (p : PaygoPar) (K : ℝ) : ℕ → ℝ
  | 0 => (1 - p.τ) * paygo_w p K * p.l.getD 0 0 - paygo_C p K 0
  | t + 1 =>
    (1 - p.τ) * paygo_w p K * p.l.getD (t + 1) 0 +
      (1 - p.l.getD (t + 1) 0) * paygo_b p K +
      (1 + paygo_r p K) * paygo_A p K t - paygo_C p K (t + 1)

/-- `solve_paygo` STEP 5 (second): implied aggregate capital, the sum of the
savings path. -/
def paygo_K (p : PaygoPar) (K : ℝ) : ℝ :=
  ((List.range p.T).map (paygo_A p K)).sum

/-- Defined from the spec's words for the refinement claim: the closed-form
deterministic CRRA consumption path generated by a first-period consumption
`c1` and the Euler growth rule `C_{t+1} = C_t · g^(1/ρ)`, `g = β·(1+r)`. -/
def eulerPath (c1 g ρ : ℝ) : ℕ → ℝ
  | 0 => c1
  | t + 1 => eulerPath c1 g ρ t * g ^ (1 / ρ)

/-- The notebook's `np.linspace(lo, hi, n)`: `n` evenly spaced points from
`lo` to `hi` inclusive. -/
def linspace (lo hi : ℝ) (n : ℕ) : List ℝ :=
  (List.range n).map (fun i : ℕ => lo + (hi - lo) * (i : ℝ) / ((n : ℝ) - 1))

/-- The Lecture 4 notebook's concrete calibration: `T = 6`, `R = 1.2`,
`β = 1/R`, `ρ = 2`, labor indicator `[1,1,1,1,0,0]`, a 7-node shock
quadrature supplied as data (`Tools.gauss_hermite` is an external numerical
primitive per spec §1), and savings grid `linspace(10e-6, 5, 1000)`. -/
def scenarioPar (Y ω : List ℝ) : EGMParams :=
  { T := 6, R := 1.2, β := 1 / 1.2, ρ := 2, l := [1, 1, 1, 1, 0, 0],
    Y := Y, ω := ω, grid := linspace (10e-6) 5 1000 }

/-- A small concrete valid parameter set used by the witnesses: two periods,
a single savings point, a degenerate one-node quadrature. -/
def wPar : EGMParams :=
  { T := 2, R := 1, β := 1 / 2, ρ := 1, l := [1, 1], Y := [1], ω := [1],
    grid := [1] }

/-- A configuration-valid parameter set whose (degenerate, negative) shock
node drives next-period cash-on-hand to `0`, making the expected marginal
utility term vanish — used to exhibit the `DomainError` path. -/
def domPar : EGMParams :=
  { T := 2, R := 1, β := 1, ρ := 1, l := [1, 1], Y := [-1], ω := [1],
    grid := [1] }

/-- An invalid parameter set (`T = 0 < 1`, empty sequences) used to exhibit
the `ConfigurationError` path. -/
def badPar : EGMParams :=
  { T := 0, R := 1, β := 1 / 2, ρ := 1, l := [], Y := [], ω := [],
    grid := [] }

/-- A concrete 7-node instantiation of the scenario quadrature data. -/
def scenY : List ℝ := List.replicate 7 1

/-- The matching concrete 7-node weight list (uniform, summing to `1`). -/
def scenω : List ℝ := List.replicate 7 (1 / 7)

/-- A concrete PAYGO parameter set used by witnesses (`α = 1`, `δ = 0`,
`L = 1`, so the implied interest rate at `K = 1` is `1`). -/
def payP : PaygoPar :=
  { T := 2, R := 1, α := 1, ρ := 1, δ := 0, β := 1, l := [1, 0], L := 1,
    τ := 0 }

/-! ## Structural lemmas about the backward induction -/

lemma solveAux_ne_nil (par : EGMParams) : ∀ ls : List ℝ, solveAux par ls ≠ [] := by
  intro ls
  induction ls with
  | nil => simp [solveAux]
  | cons x ls ih =>
    cases h : solveAux par ls with
    | nil => exact absurd h ih
    | cons next rest => simp [solveAux, h]

lemma solveAux_cons (par : EGMParams) (x : ℝ) (ls : List ℝ) :
    solveAux par (x :: ls) =
      egmStep par ((solveAux par ls).headD []) x :: solveAux par ls := by
  cases h : solveAux par ls with
  | nil => exact absurd h (solveAux_ne_nil par ls)
  | cons next rest => simp [solveAux, h]

lemma solveAux_length (par : EGMParams) (ls : List ℝ) :
    (solveAux par ls).length = ls.length + 1 := by
  induction ls with
  | nil => simp [solveAux]
  | cons x ls ih => rw [solveAux_cons, List.length_cons, ih]; simp

lemma solveAux_getD_last (par : EGMParams) (ls : List ℝ) :
    (solveAux par ls).getD ls.length [] = terminalPolicy par := by
  induction ls with
  | nil => simp [solveAux]
  | cons x ls ih => rw [solveAux_cons]; simpa using ih

lemma solveAux_getD_succ (par : EGMParams) (ls : List ℝ) :
    ∀ i, i + 1 < (solveAux par ls).length →
      (solveAux par ls).getD i [] =
        egmStep par ((solveAux par ls).getD (i + 1) []) (ls.getD i 0) := by
  induction ls with
  | nil => intro i hi; simp [solveAux] at hi
  | cons x ls ih =>
    intro i hi
    cases h : solveAux par ls with
    | nil => exact absurd h (solveAux_ne_nil par ls)
    | cons next rest =>
      have hc : solveAux par (x :: ls) = egmStep par next x :: next :: rest := by
        rw [solveAux_cons, h]; simp
      cases i with
      | zero => simp [hc, h]
      | succ i =>
        have hlen : i + 1 < (solveAux par ls).length := by
          rw [solveAux_length] at hi ⊢
          simp only [List.length_cons] at hi
          omega
        have := ih i hlen
        simp only [hc, List.getD_cons_succ, List.getD_cons_succ] at *
        rw [h] at this
        simpa using this

lemma solve_length (par : EGMParams) :
    (solve par).length = (par.l.drop 1).length + 1 :=
  solveAux_length par _

lemma solve_length_of_hT (par : EGMParams) (h : par.l.length = par.T)
    (hT : 1 ≤ par.T) : (solve par).length = par.T := by
  rw [solve_length, List.length_drop, h]
  omega

/-! ## Interpolation lemmas -/

lemma interpSeg_left (p q : ℝ × ℝ) (w : ℝ) (h : w = p.1) :
    interpSeg p q w = p.2 := by
  simp [interpSeg, h]

lemma interpSeg_right (p q : ℝ × ℝ) (h : p.1 < q.1) :
    interpSeg p q q.1 = q.2 := by
  have hne : q.1 - p.1 ≠ 0 := sub_ne_zero.mpr (ne_of_gt h)
  unfold interpSeg
  rw [mul_comm, div_mul_cancel₀ _ hne]
  ring

lemma interpSeg_mono (p q : ℝ × ℝ) (h1 : p.1 < q.1) (h2 : p.2 ≤ q.2)
    {w1 w2 : ℝ} (hw : w1 ≤ w2) : interpSeg p q w1 ≤ interpSeg p q w2 := by
  unfold interpSeg
  have hs : 0 ≤ (q.2 - p.2) / (q.1 - p.1) :=
    div_nonneg (by linarith) (by linarith)
  have := mul_le_mul_of_nonneg_right (sub_le_sub_right hw p.1) hs
  linarith

lemma interp_cons₂ (p q : ℝ × ℝ) (tl : List (ℝ × ℝ)) (w : ℝ) :
    interp (p :: q :: tl) w =
      if w ≤ q.1 ∨ tl = [] then interpSeg p q w else interp (q :: tl) w :=
  rfl

lemma interp_head (p : ℝ × ℝ) (tl : List (ℝ × ℝ))
    (h : List.Chain' (· ≤ ·) ((p :: tl).map Prod.fst)) :
    interp (p :: tl) p.1 = p.2 := by
  cases tl with
  | nil => rfl
  | cons q tl2 =>
    simp only [List.map_cons, List.chain'_cons] at h
    rw [interp_cons₂, if_pos (Or.inl h.1), interpSeg_left p q p.1 rfl]

lemma interp_mono : ∀ pol : List (ℝ × ℝ),
    List.Chain' (· < ·) (pol.map Prod.fst) →
    List.Chain' (· ≤ ·) (pol.map Prod.snd) →
    ∀ w1 w2 : ℝ, w1 ≤ w2 → interp pol w1 ≤ interp pol w2 := by
  intro pol
  induction pol with
  | nil => intro _ _ w1 w2 _; simp [interp]
  | cons p tl ih =>
    intro hW hC w1 w2 hw
    cases tl with
    | nil => simp [interp]
    | cons q tl2 =>
      simp only [List.map_cons, List.chain'_cons] at hW hC
      obtain ⟨hpq1, hW'⟩ := hW
      obtain ⟨hpq2, hC'⟩ := hC
      have hW2 : List.Chain' (· < ·) ((q :: tl2).map Prod.fst) := by
        simpa using hW'
      have hC2 : List.Chain' (· ≤ ·) ((q :: tl2).map Prod.snd) := by
        simpa using hC'
      cases tl2 with
      | nil =>
        rw [interp_cons₂, interp_cons₂, if_pos (Or.inr rfl), if_pos (Or.inr rfl)]
        exact interpSeg_mono p q hpq1 hpq2 hw
      | cons r tl3 =>
        by_cases h2 : w2 ≤ q.1
        · have h1 : w1 ≤ q.1 := le_trans hw h2
          rw [interp_cons₂ p q (r :: tl3) w1, interp_cons₂ p q (r :: tl3) w2,
            if_pos (Or.inl h1), if_pos (Or.inl h2)]
          exact interpSeg_mono p q hpq1 hpq2 hw
        · have hI2 : ¬(w2 ≤ q.1 ∨ (r :: tl3 : List (ℝ × ℝ)) = []) := by
            simp [h2]
          by_cases h1 : w1 ≤ q.1
          · rw [interp_cons₂ p q (r :: tl3) w1, interp_cons₂ p q (r :: tl3) w2,
              if_pos (Or.inl h1), if_neg hI2]
            have hup : interpSeg p q w1 ≤ q.2 := by
              calc interpSeg p q w1 ≤ interpSeg p q q.1 :=
                    interpSeg_mono p q hpq1 hpq2 h1
                _ = q.2 := interpSeg_right p q hpq1
            have hdn : q.2 ≤ interp (q :: r :: tl3) w2 := by
              have h0 : interp (q :: r :: tl3) q.1 = q.2 :=
                interp_head q (r :: tl3) (hW2.imp fun _ _ h => le_of_lt h)
              rw [← h0]
              exact ih hW2 hC2 q.1 w2 (le_of_not_le h2)
            linarith
          · have hI1 : ¬(w1 ≤ q.1 ∨ (r :: tl3 : List (ℝ × ℝ)) = []) := by
              simp [h1]
            rw [interp_cons₂ p q (r :: tl3) w1, interp_cons₂ p q (r :: tl3) w2,
              if_neg hI1, if_neg hI2]
            exact ih hW2 hC2 w1 w2 hw

lemma interp_zero (pol : List (ℝ × ℝ)) (hhead : pol.head? = some (0, 0))
    (hW : List.Chain' (· < ·) (pol.map Prod.fst)) : interp pol 0 = 0 := by
  cases pol with
  | nil => simp at hhead
  | cons p tl =>
    have hp : p = (0, 0) := by simpa using hhead
    subst hp
    cases tl with
    | nil => rfl
    | cons q tl2 =>
      have hq : (0 : ℝ) < q.1 := by
        simp only [List.map_cons, List.chain'_cons] at hW
        simpa using hW.1
      rw [interp_cons₂, if_pos (Or.inl (le_of_lt hq))]
      exact interpSeg_left _ q 0 rfl

lemma interp_pos (q : ℝ × ℝ) (tl : List (ℝ × ℝ))
    (hW : List.Chain' (· < ·) (((0, 0) :: q :: tl).map Prod.fst))
    (hC : List.Chain' (· ≤ ·) (((0, 0) :: q :: tl).map Prod.snd))
    (hq : 0 < q.2) {w : ℝ} (hw : 0 < w) :
    0 < interp ((0, 0) :: q :: tl) w := by
  have hq1 : (0 : ℝ) < q.1 := by
    simp only [List.map_cons, List.chain'_cons] at hW
    simpa using hW.1
  have hseg : ∀ v : ℝ, 0 < v → 0 < interpSeg (0, 0) q v := by
    intro v hv
    have h : interpSeg (0, 0) q v = v * (q.2 / q.1) := by
      simp [interpSeg]
    rw [h]
    exact mul_pos hv (div_pos hq hq1)
  rw [interp_cons₂]
  by_cases hcase : w ≤ q.1 ∨ tl = []
  · rw [if_pos hcase]
    exact hseg w hw
  · rw [if_neg hcase]
    push_neg at hcase
    have hW2 : List.Chain' (· < ·) ((q :: tl).map Prod.fst) := by
      simp only [List.map_cons, List.chain'_cons] at hW
      simpa using hW.2
    have hC2 : List.Chain' (· ≤ ·) ((q :: tl).map Prod.snd) := by
      simp only [List.map_cons, List.chain'_cons] at hC
      simpa using hC.2
    have h0 : interp (q :: tl) q.1 = q.2 :=
      interp_head q tl (hW2.imp fun _ _ h => le_of_lt h)
    have hmono := interp_mono (q :: tl) hW2 hC2 q.1 w (le_of_lt hcase.1)
    rw [h0] at hmono
    linarith

lemma interp_nonneg (pol : List (ℝ × ℝ)) (hhead : pol.head? = some (0, 0))
    (hW : List.Chain' (· < ·) (pol.map Prod.fst))
    (hC : List.Chain' (· ≤ ·) (pol.map Prod.snd))
    (hpos : ∀ p ∈ pol.tail, 0 < p.2) {w : ℝ} (hw : 0 ≤ w) :
    0 ≤ interp pol w := by
  rcases eq_or_lt_of_le hw with h0 | h0
  · rw [← h0, interp_zero pol hhead hW]
  · cases pol with
    | nil => simp at hhead
    | cons p tl =>
      have hp : p = (0, 0) := by simpa using hhead
      subst hp
      cases tl with
      | nil => simp [interp]
      | cons q tl2 =>
        have hq : 0 < q.2 := hpos q (by simp)
        exact le_of_lt (interp_pos q tl2 hW hC hq h0)

lemma interpSeg_id (p q : ℝ × ℝ) (hpq : p.1 < q.1) (hp : p.2 = p.1)
    (hq : q.2 = q.1) (w : ℝ) : interpSeg p q w = w := by
  have hne : q.1 - p.1 ≠ 0 := sub_ne_zero.mpr (ne_of_gt hpq)
  unfold interpSeg
  rw [hp, hq, div_self hne]
  ring

lemma interp_id : ∀ (p q : ℝ × ℝ) (tl : List (ℝ × ℝ)),
    List.Chain' (· < ·) ((p :: q :: tl).map Prod.fst) →
    (∀ x ∈ p :: q :: tl, x.2 = x.1) →
    ∀ w : ℝ, interp (p :: q :: tl) w = w := by
  intro p q tl
  induction tl generalizing p q with
  | nil =>
    intro hW hid w
    have hpq : p.1 < q.1 := by
      simp only [List.map_cons, List.chain'_cons] at hW
      exact hW.1
    rw [interp_cons₂, if_pos (Or.inr rfl)]
    exact interpSeg_id p q hpq (hid p (by simp)) (hid q (by simp)) w
  | cons r tl2 ih =>
    intro hW hid w
    have hpq : p.1 < q.1 := by
      simp only [List.map_cons, List.chain'_cons] at hW
      exact hW.1
    by_cases hc : w ≤ q.1
    · rw [interp_cons₂, if_pos (Or.inl hc)]
      exact interpSeg_id p q hpq (hid p (by simp)) (hid q (by simp)) w
    · rw [interp_cons₂, if_neg (by simp [hc])]
      have hW2 : List.Chain' (· < ·) ((q :: r :: tl2).map Prod.fst) := by
        simp only [List.map_cons, List.chain'_cons] at hW ⊢
        exact hW.2
      exact ih q r hW2 (fun x hx => hid x (List.mem_cons_of_mem p hx)) w

lemma interpSeg_lt_id (p q : ℝ × ℝ) (hpq : p.1 < q.1) (hp : p.2 ≤ p.1)
    (hslope : q.2 - p.2 < q.1 - p.1) {w : ℝ} (hw : p.1 < w) :
    interpSeg p q w < w := by
  unfold interpSeg
  have hs : (q.2 - p.2) / (q.1 - p.1) < 1 :=
    (div_lt_one (by linarith)).mpr hslope
  have h1 : (w - p.1) * ((q.2 - p.2) / (q.1 - p.1)) < (w - p.1) * 1 :=
    mul_lt_mul_of_pos_left hs (by linarith)
  linarith

lemma interp_lt_id : ∀ (p q : ℝ × ℝ) (tl : List (ℝ × ℝ)),
    List.Chain' (· < ·) ((p :: q :: tl).map Prod.fst) →
    List.Chain' (fun u v : ℝ × ℝ => v.2 - u.2 < v.1 - u.1) (p :: q :: tl) →
    p.2 ≤ p.1 →
    ∀ w : ℝ, p.1 < w → interp (p :: q :: tl) w < w := by
  intro p q tl
  induction tl generalizing p q with
  | nil =>
    intro hW hS hp w hw
    have hpq : p.1 < q.1 := by
      simp only [List.map_cons, List.chain'_cons] at hW
      exact hW.1
    rw [interp_cons₂, if_pos (Or.inr rfl)]
    exact interpSeg_lt_id p q hpq hp (List.chain'_cons.mp hS).1 hw
  | cons r tl2 ih =>
    intro hW hS hp w hw
    have hpq : p.1 < q.1 := by
      simp only [List.map_cons, List.chain'_cons] at hW
      exact hW.1
    have hs : q.2 - p.2 < q.1 - p.1 := (List.chain'_cons.mp hS).1
    by_cases hc : w ≤ q.1
    · rw [interp_cons₂, if_pos (Or.inl hc)]
      exact interpSeg_lt_id p q hpq hp hs hw
    · rw [interp_cons₂, if_neg (by simp [hc])]
      have hW2 : List.Chain' (· < ·) ((q :: r :: tl2).map Prod.fst) := by
        simp only [List.map_cons, List.chain'_cons] at hW ⊢
        exact hW.2
      exact ih q r hW2 (List.chain'_cons.mp hS).2 (by linarith) w
        (lt_of_not_le hc)

/-! ## Positivity and monotonicity of the Euler inversion -/

lemma policyInv_interp_pos {par : EGMParams} {pol : List (ℝ × ℝ)}
    (hinv : PolicyInv par pol) (hne : par.grid ≠ []) {w : ℝ} (hw : 0 < w) :
    0 < interp pol w := by
  obtain ⟨len, head, chainW, chainC, posC⟩ := hinv
  cases pol with
  | nil => simp at head
  | cons p tl =>
    have hp : p = (0, 0) := by simpa using head
    subst hp
    cases tl with
    | nil =>
      exfalso
      simp only [List.length_cons, List.length_nil] at len
      exact hne (List.length_eq_zero.mp (by omega))
    | cons q tl2 =>
      exact interp_pos q tl2 chainW chainC (posC q (by simp)) hw

lemma policyInv_interp_nonneg {par : EGMParams} {pol : List (ℝ × ℝ)}
    (hinv : PolicyInv par pol) {w : ℝ} (hw : 0 ≤ w) : 0 ≤ interp pol w :=
  interp_nonneg pol hinv.head hinv.chainW hinv.chainC hinv.posC hw

lemma emu_term_nonneg {par : EGMParams} {pol : List (ℝ × ℝ)} {lnext : ℝ}
    (hinv : PolicyInv par pol) (hR : 0 < par.R) (hl : 0 ≤ lnext)
    (hY : ∀ y ∈ par.Y, 0 < y) (hω : ∀ x ∈ par.ω, 0 ≤ x) {a : ℝ} (ha : 0 < a) :
    ∀ z ∈ (par.Y.zip par.ω).map
      (fun s => s.2 * interp pol (s.1 * lnext + par.R * a) ^ (-par.ρ)), 0 ≤ z := by
  intro z hz
  obtain ⟨⟨y, x⟩, hs, rfl⟩ := List.mem_map.mp hz
  obtain ⟨hsY, hsω⟩ := List.of_mem_zip hs
  have hw' : 0 ≤ y * lnext + par.R * a := by
    have h1 : 0 ≤ y * lnext := mul_nonneg (le_of_lt (hY y hsY)) hl
    have h2 : 0 < par.R * a := mul_pos hR ha
    linarith
  exact mul_nonneg (hω x hsω)
    (Real.rpow_nonneg (policyInv_interp_nonneg hinv hw') _)

lemma emu_nonneg {par : EGMParams} {pol : List (ℝ × ℝ)} {lnext : ℝ}
    (hinv : PolicyInv par pol) (hR : 0 < par.R) (hl : 0 ≤ lnext)
    (hY : ∀ y ∈ par.Y, 0 < y) (hω : ∀ x ∈ par.ω, 0 ≤ x) {a : ℝ} (ha : 0 < a) :
    0 ≤ emu par pol lnext a :=
  List.sum_nonneg (emu_term_nonneg hinv hR hl hY hω ha)

lemma emu_pos {par : EGMParams} {pol : List (ℝ × ℝ)} {lnext : ℝ}
    (hinv : PolicyInv par pol) (hR : 0 < par.R) (hl : 0 ≤ lnext)
    (hY : ∀ y ∈ par.Y, 0 < y) (hω : ∀ x ∈ par.ω, 0 ≤ x)
    (hYω : par.Y.length = par.ω.length) (hωsum : par.ω.sum = 1)
    (hne : par.grid ≠ []) {a : ℝ} (ha : 0 < a) : 0 < emu par pol lnext a := by
  have hex : ∃ x ∈ par.ω, x ≠ 0 := by
    by_contra h
    push_neg at h
    have h0 : par.ω.sum = 0 := List.sum_eq_zero h
    rw [hωsum] at h0
    norm_num at h0
  obtain ⟨x, hxmem, hxne⟩ := hex
  obtain ⟨i, hi, hxi⟩ := List.getElem_of_mem hxmem
  have hiY : i < par.Y.length := by omega
  have hizip : i < (par.Y.zip par.ω).length := by
    rw [List.length_zip]
    omega
  have hval : (par.Y.zip par.ω)[i] = (par.Y[i], par.ω[i]) := List.getElem_zip
  have hterm : 0 < (par.Y.zip par.ω)[i].2 *
      interp pol ((par.Y.zip par.ω)[i].1 * lnext + par.R * a) ^ (-par.ρ) := by
    rw [hval]
    have hymem : par.Y[i] ∈ par.Y := List.getElem_mem hiY
    have hy : 0 < par.Y[i] := hY _ hymem
    have hxpos : 0 < par.ω[i] := by
      rw [hxi]
      exact lt_of_le_of_ne (hω x hxmem) (Ne.symm hxne)
    have hw' : 0 < par.Y[i] * lnext + par.R * a := by
      have h1 : 0 ≤ par.Y[i] * lnext := mul_nonneg hy.le hl
      have h2 : 0 < par.R * a := mul_pos hR ha
      linarith
    exact mul_pos hxpos
      (Real.rpow_pos_of_pos (policyInv_interp_pos hinv hne hw') _)
  have hle := List.single_le_sum (emu_term_nonneg hinv hR hl hY hω ha) _
    (List.mem_map_of_mem _ (List.getElem_mem hizip))
  calc (0 : ℝ) < _ := hterm
    _ ≤ _ := hle

lemma consum_nonneg {par : EGMParams} {pol : List (ℝ × ℝ)} {lnext a : ℝ}
    (hβ : 0 ≤ par.β) (hR : 0 ≤ par.R) (hemu : 0 ≤ emu par pol lnext a) :
    0 ≤ consum par pol lnext a :=
  Real.rpow_nonneg (mul_nonneg (mul_nonneg hβ hR) hemu) _

lemma consum_pos {par : EGMParams} {pol : List (ℝ × ℝ)} {lnext a : ℝ}
    (hβ : 0 < par.β) (hR : 0 < par.R) (hemu : 0 < emu par pol lnext a) :
    0 < consum par pol lnext a :=
  Real.rpow_pos_of_pos (mul_pos (mul_pos hβ hR) hemu) _

lemma emu_anti {par : EGMParams} {pol : List (ℝ × ℝ)} {lnext : ℝ}
    (hinv : PolicyInv par pol) (hR : 0 < par.R) (hl : 0 ≤ lnext)
    (hY : ∀ y ∈ par.Y, 0 < y) (hω : ∀ x ∈ par.ω, 0 ≤ x)
    (hρ : 0 < par.ρ) (hne : par.grid ≠ [])
    {a1 a2 : ℝ} (h1 : 0 < a1) (ha : a1 ≤ a2) :
    emu par pol lnext a2 ≤ emu par pol lnext a1 := by
  unfold emu
  apply List.sum_le_sum
  rintro ⟨y, x⟩ hs
  obtain ⟨hsY, hsω⟩ := List.of_mem_zip hs
  have hy : 0 < y := hY y hsY
  have hw1 : 0 < y * lnext + par.R * a1 := by
    have := mul_nonneg hy.le hl
    have := mul_pos hR h1
    linarith
  have hw12 : y * lnext + par.R * a1 ≤ y * lnext + par.R * a2 := by
    have := mul_le_mul_of_nonneg_left ha hR.le
    linarith
  have hv1 : 0 < interp pol (y * lnext + par.R * a1) :=
    policyInv_interp_pos hinv hne hw1
  have hv12 : interp pol (y * lnext + par.R * a1) ≤
      interp pol (y * lnext + par.R * a2) :=
    interp_mono pol hinv.chainW hinv.chainC _ _ hw12
  have hpow := Real.rpow_le_rpow_of_nonpos hv1 hv12 (neg_nonpos.mpr hρ.le)
  exact mul_le_mul_of_nonneg_left hpow (hω x hsω)

lemma consum_mono {par : EGMParams} {pol : List (ℝ × ℝ)} {lnext : ℝ}
    (hinv : PolicyInv par pol) (hβ : 0 < par.β) (hR : 0 < par.R)
    (hl : 0 ≤ lnext) (hY : ∀ y ∈ par.Y, 0 < y) (hω : ∀ x ∈ par.ω, 0 ≤ x)
    (hYω : par.Y.length = par.ω.length) (hωsum : par.ω.sum = 1)
    (hρ : 0 < par.ρ) (hne : par.grid ≠ [])
    {a1 a2 : ℝ} (h1 : 0 < a1) (ha : a1 ≤ a2) :
    consum par pol lnext a1 ≤ consum par pol lnext a2 := by
  unfold consum
  have he2 : 0 < emu par pol lnext a2 :=
    emu_pos hinv hR hl hY hω hYω hωsum hne (lt_of_lt_of_le h1 ha)
  have hanti := emu_anti hinv hR hl hY hω hρ hne h1 ha
  have hbase : par.β * par.R * emu par pol lnext a2 ≤
      par.β * par.R * emu par pol lnext a1 :=
    mul_le_mul_of_nonneg_left hanti (mul_pos hβ hR).le
  exact Real.rpow_le_rpow_of_nonpos (mul_pos (mul_pos hβ hR) he2) hbase
    (neg_nonpos.mpr (div_nonneg zero_le_one hρ.le))

/-! ## Preservation of the policy invariant along the backward induction -/

lemma chain'_map_rel {β : Type*} (g : ℝ → β) (r : β → β → Prop) :
    ∀ l : List ℝ, List.Chain' (· < ·) l →
      (∀ a b, a ∈ l → b ∈ l → a < b → r (g a) (g b)) →
      List.Chain' r (l.map g) := by
  intro l
  induction l with
  | nil => intro _ _; simp
  | cons a l ih =>
    intro hch hg
    rw [List.map_cons]
    refine List.chain'_cons'.mpr ⟨?_, ?_⟩
    · intro y hy
      cases l with
      | nil => simp at hy
      | cons b l2 =>
        have hy2 : g b = y := by simpa using hy
        subst hy2
        exact hg a b (by simp) (by simp) (List.chain'_cons.mp hch).1
    · exact ih hch.tail (fun u v hu hv2 huv =>
        hg u v (List.mem_cons_of_mem a hu) (List.mem_cons_of_mem a hv2) huv)

lemma egmStep_inv {par : EGMParams} {pol : List (ℝ × ℝ)} {lnext : ℝ}
    (hv : ValidParamSet par) (hl : 0 ≤ lnext) (hinv : PolicyInv par pol) :
    PolicyInv par (egmStep par pol lnext) := by
  have hgne : ∀ a : ℝ, a ∈ par.grid → par.grid ≠ [] := by
    intro a ha h
    rw [h] at ha
    simp at ha
  have hcnn : ∀ a : ℝ, a ∈ par.grid → 0 ≤ consum par pol lnext a := by
    intro a ha
    exact consum_nonneg hv.hβ0.le hv.hR.le
      (emu_nonneg hinv hv.hR hl hv.hY hv.hω (hv.hgridPos a ha))
  have hcpos : ∀ a : ℝ, a ∈ par.grid → 0 < consum par pol lnext a := by
    intro a ha
    exact consum_pos hv.hβ0 hv.hR
      (emu_pos hinv hv.hR hl hv.hY hv.hω hv.hYω hv.hωsum (hgne a ha)
        (hv.hgridPos a ha))
  have hcmono : ∀ a b : ℝ, a ∈ par.grid → b ∈ par.grid → a < b →
      consum par pol lnext a ≤ consum par pol lnext b := by
    intro a b hma hmb hab
    exact consum_mono hinv hv.hβ0 hv.hR hl hv.hY hv.hω hv.hYω hv.hωsum hv.hρ
      (hgne a hma) (hv.hgridPos a hma) (le_of_lt hab)
  have hmapW : (egmStep par pol lnext).map Prod.fst =
      0 :: par.grid.map (fun a => a + consum par pol lnext a) := by
    simp [egmStep, List.map_map, Function.comp]
  have hmapC : (egmStep par pol lnext).map Prod.snd =
      0 :: par.grid.map (fun a => consum par pol lnext a) := by
    simp [egmStep, List.map_map, Function.comp]
  constructor
  · simp [egmStep]
  · simp [egmStep]
  · rw [hmapW]
    refine List.chain'_cons'.mpr ⟨?_, ?_⟩
    · intro y hy
      cases hg : par.grid with
      | nil => rw [hg] at hy; simp at hy
      | cons a0 rest =>
        rw [hg] at hy
        have hy2 : a0 + consum par pol lnext a0 = y := by simpa using hy
        subst hy2
        have ha0 : a0 ∈ par.grid := by rw [hg]; simp
        have h1 := hv.hgridPos a0 ha0
        have h2 := hcnn a0 ha0
        linarith
    · exact chain'_map_rel _ _ par.grid hv.hgrid (fun a b hma hmb hab =>
        add_lt_add_of_lt_of_le hab (hcmono a b hma hmb hab))
  · rw [hmapC]
    refine List.chain'_cons'.mpr ⟨?_, ?_⟩
    · intro y hy
      cases hg : par.grid with
      | nil => rw [hg] at hy; simp at hy
      | cons a0 rest =>
        rw [hg] at hy
        have hy2 : consum par pol lnext a0 = y := by simpa using hy
        subst hy2
        exact hcnn a0 (by rw [hg]; simp)
    · exact chain'_map_rel _ _ par.grid hv.hgrid (fun a b hma hmb hab =>
        hcmono a b hma hmb hab)
  · intro p hp
    simp only [egmStep, List.tail_cons, List.mem_map] at hp
    obtain ⟨a, ha, rfl⟩ := hp
    exact hcpos a ha

lemma terminalPolicy_inv {par : EGMParams} (hv : ValidParamSet par) :
    PolicyInv par (terminalPolicy par) := by
  have hfst : (Prod.fst ∘ fun g : ℝ => ((g, g) : ℝ × ℝ)) = id := rfl
  have hsnd : (Prod.snd ∘ fun g : ℝ => ((g, g) : ℝ × ℝ)) = id := rfl
  have hmapW : (terminalPolicy par).map Prod.fst = 0 :: par.grid := by
    simp [terminalPolicy, List.map_map, hfst]
  have hmapC : (terminalPolicy par).map Prod.snd = 0 :: par.grid := by
    simp [terminalPolicy, List.map_map, hsnd]
  have hchain : List.Chain' (· < ·) ((0 : ℝ) :: par.grid) := by
    refine List.chain'_cons'.mpr ⟨?_, hv.hgrid⟩
    intro y hy
    cases hg : par.grid with
    | nil => rw [hg] at hy; simp at hy
    | cons a0 rest =>
      rw [hg] at hy
      have hy2 : a0 = y := by simpa using hy
      subst hy2
      exact hv.hgridPos a0 (by rw [hg]; simp)
  constructor
  · simp [terminalPolicy]
  · simp [terminalPolicy]
  · rw [hmapW]; exact hchain
  · rw [hmapC]; exact hchain.imp fun _ _ h => le_of_lt h
  · intro p hp
    simp only [terminalPolicy, List.tail_cons, List.mem_map] at hp
    obtain ⟨g, hg, rfl⟩ := hp
    exact hv.hgridPos g hg

lemma solveAux_mem_inv {par : EGMParams} (hv : ValidParamSet par) :
    ∀ ls : List ℝ, (∀ x ∈ ls, 0 ≤ x) →
      ∀ pol ∈ solveAux par ls, PolicyInv par pol := by
  intro ls
  induction ls with
  | nil =>
    intro _ pol hpol
    have h : pol = terminalPolicy par := by simpa [solveAux] using hpol
    rw [h]
    exact terminalPolicy_inv hv
  | cons x ls ih =>
    intro hge pol hpol
    rw [solveAux_cons] at hpol
    rcases List.mem_cons.mp hpol with h | h
    · subst h
      have hhead : (solveAux par ls).headD [] ∈ solveAux par ls := by
        cases hsa : solveAux par ls with
        | nil => exact absurd hsa (solveAux_ne_nil par ls)
        | cons a t => simp
      exact egmStep_inv hv (hge x (by simp))
        (ih (fun z hz => hge z (by simp [hz])) _ hhead)
    · exact ih (fun z hz => hge z (by simp [hz])) pol h

lemma solve_mem_inv {par : EGMParams} (hv : ValidParamSet par) :
    ∀ pol ∈ solve par, PolicyInv par pol := by
  apply solveAux_mem_inv hv
  intro x hx
  rcases hv.hl01 x (List.mem_of_mem_drop hx) with h | h <;> simp [h]

lemma policyAt_mem {par : EGMParams} {i : ℕ} (hi : i < (solve par).length) :
    policyAt par i ∈ solve par := by
  unfold policyAt
  rw [List.getD_eq_getElem _ _ hi]
  exact List.getElem_mem hi

lemma policyAt_inv {par : EGMParams} (hv : ValidParamSet par) {i : ℕ}
    (hi : i < (solve par).length) : PolicyInv par (policyAt par i) :=
  solve_mem_inv hv _ (policyAt_mem hi)

lemma policyAt_step {par : EGMParams} {i : ℕ}
    (hi : i + 1 < (solve par).length) :
    policyAt par i = egmStep par (policyAt par (i + 1)) (par.l.getD (i + 1) 0) := by
  have hlen : i < (par.l.drop 1).length := by
    have h := solve_length par
    omega
  have hbound : i + 1 < par.l.length := by
    rw [List.length_drop] at hlen
    omega
  have hgd : (par.l.drop 1).getD i 0 = par.l.getD (i + 1) 0 := by
    rw [List.getD_eq_getElem _ _ hlen, List.getD_eq_getElem _ _ hbound]
    simp [Nat.add_comm]
  unfold policyAt solve
  rw [← hgd]
  exact solveAux_getD_succ par (par.l.drop 1) i hi

/-! ## Shared witness facts -/

lemma wPar_valid : ValidParamSet wPar := by
  refine ⟨?_, ?_, ?_, ?_, ?_, ?_, ?_, ?_, ?_, ?_, ?_, ?_, ?_⟩ <;>
    norm_num [wPar]

lemma wPar_consum_val : consum wPar (terminalPolicy wPar) 1 1 = 4 := by
  have hint : interp (terminalPolicy wPar) (1 * 1 + wPar.R * 1) = 2 := by
    norm_num [wPar, terminalPolicy, interp, interpSeg]
  unfold consum emu
  rw [show wPar.Y.zip wPar.ω = [(1, 1)] from rfl]
  simp only [List.map_cons, List.map_nil, List.sum_cons, List.sum_nil]
  rw [hint]
  norm_num [wPar, Real.rpow_neg_one]

lemma wPar_solve : solve wPar = [[(0, 0), (5, 4)], [(0, 0), (1, 1)]] := by
  have hterm : terminalPolicy wPar = [(0, 0), (1, 1)] := by
    simp [terminalPolicy, wPar]
  have hstep : egmStep wPar (terminalPolicy wPar) 1 = [(0, 0), (5, 4)] := by
    unfold egmStep
    rw [show wPar.grid = [1] from rfl]
    simp only [List.map_cons, List.map_nil]
    rw [wPar_consum_val]
    norm_num
  have hsol : solve wPar =
      egmStep wPar (terminalPolicy wPar) 1 :: [terminalPolicy wPar] := rfl
  rw [hsol, hstep, hterm]


/-! ## Claim theorems -/

/-- C2: for every parameter set, the terminal-period policy returned by the
solver (the last entry of the output) is the identity on its grid: every
stored pair satisfies `C_T(w) = w`, and the terminal endogenous grid is the
exogenous savings grid reinterpreted as cash-on-hand (with the prepended
constrained origin, giving length `N + 1` as spec §3 requires). -/
theorem egm_terminal_identity (par : EGMParams) :
    (solve par).getD ((solve par).length - 1) [] = terminalPolicy par ∧
    (∀ p ∈ terminalPolicy par, p.2 = p.1) ∧
    (terminalPolicy par).map Prod.fst = 0 :: par.grid := by
  have hfst : (Prod.fst ∘ fun g : ℝ => ((g, g) : ℝ × ℝ)) = id := rfl
  refine ⟨?_, ?_, ?_⟩
  · have h1 : (solve par).length - 1 = (par.l.drop 1).length := by
      rw [solve_length]
      omega
    rw [h1]
    exact solveAux_getD_last par _
  · intro p hp
    simp only [terminalPolicy, List.mem_cons, List.mem_map] at hp
    rcases hp with h | ⟨g, _, h⟩
    · rw [h]
    · rw [← h]
  · simp [terminalPolicy, List.map_map, hfst]

/-- C2 witness: the terminal facts at the concrete parameter set `wPar`,
the identity instantiated at the stored terminal point `(1, 1)`. -/
theorem egm_terminal_identity_witness :
    (solve wPar).getD ((solve wPar).length - 1) [] = terminalPolicy wPar ∧
    (((1 : ℝ), (1 : ℝ)) : ℝ × ℝ).2 = (((1 : ℝ), (1 : ℝ)) : ℝ × ℝ).1 ∧
    (terminalPolicy wPar).map Prod.fst = 0 :: wPar.grid :=
  ⟨(egm_terminal_identity wPar).1,
    (egm_terminal_identity wPar).2.1 (1, 1) (by simp [terminalPolicy, wPar]),
    (egm_terminal_identity wPar).2.2⟩

/-- C4: for every valid parameter set and every period, the returned policy
has non-decreasing consumption along its (strictly increasing) endogenous
grid — so adjacent grid points `w1 < w2` satisfy `C_t(w1) ≤ C_t(w2)` — and
consumption is non-negative at every grid point. -/
theorem egm_policy_monotone_nonneg (par : EGMParams) (hv : ValidParamSet par) :
    ∀ pol ∈ solve par,
      List.Chain' (· < ·) (pol.map Prod.fst) ∧
      List.Chain' (· ≤ ·) (pol.map Prod.snd) ∧
      ∀ p ∈ pol, 0 ≤ p.2 := by
  intro pol hpol
  have hinv := solve_mem_inv hv pol hpol
  refine ⟨hinv.chainW, hinv.chainC, ?_⟩
  intro p hp
  cases pol with
  | nil => simp at hp
  | cons q tl =>
    have hq : q = (0, 0) := by simpa using hinv.head
    rcases List.mem_cons.mp hp with h | h
    · rw [h, hq]
    · exact (hinv.posC p h).le

/-- C4 witness: the conclusion at the concrete valid parameter set `wPar`,
instantiated at its period-1 policy and the stored point `(5, 4)`. -/
theorem egm_policy_monotone_nonneg_witness :
    List.Chain' (· < ·) ((policyAt wPar 0).map Prod.fst) ∧
    List.Chain' (· ≤ ·) ((policyAt wPar 0).map Prod.snd) ∧
    (0 : ℝ) ≤ (((5 : ℝ), (4 : ℝ)) : ℝ × ℝ).2 :=
  have h := egm_policy_monotone_nonneg wPar wPar_valid (policyAt wPar 0)
    (by simp [policyAt, wPar_solve])
  ⟨h.1, h.2.1, h.2.2 (5, 4) (by simp [policyAt, wPar_solve])⟩

/-- C5: for every valid parameter set and every non-terminal period, the
stored policy is a pair of equal-length sequences of length `N + 1`, headed
by the prepended anchor `(0, 0)`, whose unconstrained entries satisfy
`W_t(a_j) = a_j + C_t(a_j)` for the `j`-th exogenous savings point, with
`W_t` strictly increasing. -/
theorem egm_endogenous_grid_structure (par : EGMParams)
    (hv : ValidParamSet par) (i : ℕ) (hi : i + 1 < (solve par).length) :
    (policyAt par i).length = par.grid.length + 1 ∧
    ((policyAt par i).map Prod.fst).length = par.grid.length + 1 ∧
    ((policyAt par i).map Prod.snd).length = par.grid.length + 1 ∧
    (policyAt par i).head? = some (0, 0) ∧
    (∀ j, j < par.grid.length →
      ((policyAt par i).getD (j + 1) (0, 0)).1 =
        par.grid.getD j 0 + ((policyAt par i).getD (j + 1) (0, 0)).2) ∧
    List.Chain' (· < ·) ((policyAt par i).map Prod.fst) := by
  have hinv := policyAt_inv hv (lt_of_le_of_lt (Nat.le_succ i) hi)
  refine ⟨hinv.len, ?_, ?_, hinv.head, ?_, hinv.chainW⟩
  · rw [List.length_map]; exact hinv.len
  · rw [List.length_map]; exact hinv.len
  · intro j hj
    rw [policyAt_step hi]
    simp only [egmStep, List.getD_cons_succ]
    rw [List.getD_eq_getElem _ _ (by rw [List.length_map]; exact hj),
      List.getElem_map, List.getD_eq_getElem _ _ hj]

/-- C5 witness: the structure facts at the concrete valid parameter set
`wPar` for its first (non-terminal) period, instantiated at grid index 0. -/
theorem egm_endogenous_grid_structure_witness :
    (policyAt wPar 0).length = wPar.grid.length + 1 ∧
    ((policyAt wPar 0).map Prod.fst).length = wPar.grid.length + 1 ∧
    ((policyAt wPar 0).map Prod.snd).length = wPar.grid.length + 1 ∧
    (policyAt wPar 0).head? = some (0, 0) ∧
    ((policyAt wPar 0).getD 1 (0, 0)).1 =
      wPar.grid.getD 0 0 + ((policyAt wPar 0).getD 1 (0, 0)).2 ∧
    List.Chain' (· < ·) ((policyAt wPar 0).map Prod.fst) :=
  have h := egm_endogenous_grid_structure wPar wPar_valid 0
    (by rw [solve_length]; simp [wPar])
  ⟨h.1, h.2.1, h.2.2.1, h.2.2.2.1, h.2.2.2.2.1 0 (by simp [wPar]),
    h.2.2.2.2.2⟩

/-- C1: for every non-terminal period `t` and every exogenous savings point
`a_j`, the solver's stored policy entry is computed in closed form: the
consumption component equals
`(β·R·Σ_s ω_s·C_{t+1}(y_s·l_{t+1} + R·a_j)^(-ρ))^(-1/ρ)` with `C_{t+1}`
evaluated by linear interpolation over the stored period-`t+1` policy, and
the cash-on-hand component is `a_j` plus that consumption. -/
theorem egm_closed_form_step (par : EGMParams) (hT : par.l.length = par.T)
    (i j : ℕ) (hi : i + 1 < par.T) (hj : j < par.grid.length) :
    (policyAt par i).getD (j + 1) (0, 0) =
      (par.grid.getD j 0 +
        (par.β * par.R *
          ((par.Y.zip par.ω).map (fun s =>
            s.2 * interp (policyAt par (i + 1))
              (s.1 * par.l.getD (i + 1) 0 + par.R * par.grid.getD j 0) ^
                (-par.ρ))).sum) ^ (-(1 / par.ρ)),
       (par.β * par.R *
          ((par.Y.zip par.ω).map (fun s =>
            s.2 * interp (policyAt par (i + 1))
              (s.1 * par.l.getD (i + 1) 0 + par.R * par.grid.getD j 0) ^
                (-par.ρ))).sum) ^ (-(1 / par.ρ))) := by
  have hi' : i + 1 < (solve par).length := by
    rw [solve_length, List.length_drop, hT]
    omega
  rw [policyAt_step hi']
  simp only [egmStep, List.getD_cons_succ]
  rw [List.getD_eq_getElem _ _ (by rw [List.length_map]; exact hj),
    List.getElem_map, List.getD_eq_getElem _ _ hj]
  simp only [consum, emu]

/-- C1 witness: the closed form holds at the concrete parameter set `wPar`
for its first period and first grid point. -/
theorem egm_closed_form_step_witness :
    (policyAt wPar 0).getD (0 + 1) (0, 0) =
      (wPar.grid.getD 0 0 +
        (wPar.β * wPar.R *
          ((wPar.Y.zip wPar.ω).map (fun s =>
            s.2 * interp (policyAt wPar (0 + 1))
              (s.1 * wPar.l.getD (0 + 1) 0 + wPar.R * wPar.grid.getD 0 0) ^
                (-wPar.ρ))).sum) ^ (-(1 / wPar.ρ)),
       (wPar.β * wPar.R *
          ((wPar.Y.zip wPar.ω).map (fun s =>
            s.2 * interp (policyAt wPar (0 + 1))
              (s.1 * wPar.l.getD (0 + 1) 0 + wPar.R * wPar.grid.getD 0 0) ^
                (-wPar.ρ))).sum) ^ (-(1 / wPar.ρ))) :=
  egm_closed_form_step wPar rfl 0 0 (by norm_num [wPar]) (by norm_num [wPar])

/-! ## Error-handling lemmas and claims -/

lemma egmStepE_error_eq {par : EGMParams} {pol : List (ℝ × ℝ)} {lnext : ℝ}
    {e : SolverError} (h : egmStepE par pol lnext = Except.error e) :
    e = SolverError.domainError := by
  unfold egmStepE at h
  split at h
  · simp at h
  · simpa using h.symm

lemma egmStepE_of_nonpos {par : EGMParams} {pol : List (ℝ × ℝ)} {lnext : ℝ}
    (h : ∃ a ∈ par.grid, emuTerm par pol lnext a ≤ 0) :
    egmStepE par pol lnext = Except.error SolverError.domainError := by
  have h' : ¬∀ a ∈ par.grid, 0 < emuTerm par pol lnext a := by
    push_neg
    exact h
  unfold egmStepE
  rw [if_neg h']

lemma solveAuxE_ne_config (par : EGMParams) :
    ∀ ls, solveAuxE par ls ≠ Except.error SolverError.configurationError := by
  intro ls
  induction ls with
  | nil => simp [solveAuxE]
  | cons x ls ih =>
    intro hcon
    simp only [solveAuxE] at hcon
    cases h : solveAuxE par ls with
    | error e =>
      rw [h] at hcon
      simp only [Except.error.injEq] at hcon
      exact ih (by rw [h, hcon])
    | ok pols =>
      rw [h] at hcon
      cases pols with
      | nil => simp at hcon
      | cons next rest =>
        have hcon' : (match egmStepE par next x with
            | Except.error e => Except.error e
            | Except.ok pol => Except.ok (pol :: next :: rest)) =
            Except.error SolverError.configurationError := hcon
        cases hstep : egmStepE par next x with
        | error e =>
          rw [hstep] at hcon'
          simp only [Except.error.injEq] at hcon'
          have hdom := egmStepE_error_eq hstep
          rw [hcon'] at hdom
          simp at hdom
        | ok pol =>
          rw [hstep] at hcon'
          simp at hcon'

lemma solveAuxE_ok_length (par : EGMParams) :
    ∀ (ls : List ℝ) (pols : List (List (ℝ × ℝ))),
      solveAuxE par ls = Except.ok pols → pols.length = ls.length + 1 := by
  intro ls
  induction ls with
  | nil =>
    intro pols h
    simp only [solveAuxE, Except.ok.injEq] at h
    rw [← h]
    simp
  | cons x ls ih =>
    intro pols h
    simp only [solveAuxE] at h
    cases hrec : solveAuxE par ls with
    | error e => rw [hrec] at h; simp at h
    | ok prev =>
      rw [hrec] at h
      cases prev with
      | nil => exact absurd (ih [] hrec) (by simp)
      | cons next rest =>
        have h' : (match egmStepE par next x with
            | Except.error e => Except.error e
            | Except.ok pol => Except.ok (pol :: next :: rest)) =
            Except.ok pols := h
        cases hstep : egmStepE par next x with
        | error e => rw [hstep] at h'; simp at h'
        | ok pol =>
          rw [hstep] at h'
          simp only [Except.ok.injEq] at h'
          rw [← h']
          have hlen := ih (next :: rest) hrec
          simp only [List.length_cons] at hlen ⊢
          omega

/-- C7: the validated solver raises `ConfigurationError` exactly when the
parameter set is invalid (`T < 1`, non-increasing grid, mismatched sequence
lengths, negative weights, or `R ≤ 0`), synchronously — the error is the
whole result, so no policy of any period is produced. -/
theorem egm_configuration_error_iff (par : EGMParams) :
    (solveE par = Except.error SolverError.configurationError ↔
      ¬validConfig par) ∧
    (¬validConfig par → ∀ pols, solveE par ≠ Except.ok pols) := by
  constructor
  · unfold solveE
    by_cases hv : validConfig par
    · rw [if_pos hv]
      simp only [hv, not_true_eq_false, iff_false]
      exact solveAuxE_ne_config par _
    · rw [if_neg hv]
      simp [hv]
  · intro hv pols
    unfold solveE
    rw [if_neg hv]
    simp

/-- C7 witness: the concrete invalid parameter set `badPar` (horizon `0`)
yields `ConfigurationError`. -/
theorem egm_configuration_error_iff_witness :
    solveE badPar = Except.error SolverError.configurationError :=
  (egm_configuration_error_iff badPar).1.mpr (by simp [validConfig, badPar])

/-- C8: if, after the earlier backward steps succeeded, the expected
marginal-utility term `β·R·Σ_s ω_s·C_{t+1}(w')^(-ρ)` is non-positive at some
grid point, the next step turns the whole run into `DomainError`; and the
validated solver is all-or-nothing — whenever it returns `ok`, the policy
sequence is complete with exactly `T` periods. -/
theorem egm_domain_error_all_or_nothing :
    (∀ (par : EGMParams) (ls : List ℝ) (lnext : ℝ) (next : List (ℝ × ℝ))
        (rest : List (List (ℝ × ℝ))),
      solveAuxE par ls = Except.ok (next :: rest) →
      (∃ a ∈ par.grid, emuTerm par next lnext a ≤ 0) →
      solveAuxE par (lnext :: ls) = Except.error SolverError.domainError) ∧
    (∀ (par : EGMParams) (pols : List (List (ℝ × ℝ))),
      solveE par = Except.ok pols → pols.length = par.T) := by
  constructor
  · intro par ls lnext next rest hok hex
    simp only [solveAuxE, hok, egmStepE_of_nonpos hex]
  · intro par pols h
    unfold solveE at h
    by_cases hv : validConfig par
    · rw [if_pos hv] at h
      have hlen := solveAuxE_ok_length par _ _ h
      rw [List.length_drop] at hlen
      obtain ⟨hT, hl, -⟩ := hv
      omega
    · rw [if_neg hv] at h
      simp at h

/-- C8 witness: at the configuration-valid parameter set `domPar` the first
backward step's expected-marginal-utility term vanishes at the grid point
`1`, and the run fails with `DomainError`. -/
theorem egm_domain_error_all_or_nothing_witness :
    solveAuxE domPar [1] = Except.error SolverError.domainError := by
  apply egm_domain_error_all_or_nothing.1 domPar [] 1 (terminalPolicy domPar) []
  · rfl
  · refine ⟨1, by simp [domPar], ?_⟩
    have hterm : emuTerm domPar (terminalPolicy domPar) 1 1 = 0 := by
      norm_num [emuTerm, emu, domPar, terminalPolicy, interp, interpSeg,
        Real.zero_rpow]
    rw [hterm]

/-! ## The constrained region (claim C3) -/

lemma l_getD_nonneg {par : EGMParams} (hv : ValidParamSet par) (k : ℕ) :
    0 ≤ par.l.getD k 0 := by
  by_cases hk : k < par.l.length
  · rw [List.getD_eq_getElem _ _ hk]
    rcases hv.hl01 _ (List.getElem_mem hk) with h | h <;> simp [h]
  · rw [List.getD_eq_default _ _ (le_of_not_lt hk)]

/-- C3 counterexample: at the valid parameter set `wPar`, the queried
cash-on-hand `1` lies strictly below period 1's first unconstrained
endogenous grid point (`5`), yet interpolation over the stored `(W₁, C₁)`
arrays returns `4/5 ≠ 1` — not `C_t(w) = w` as the claim states. -/
theorem egm_constrained_region_not_exact :
    (1 : ℝ) < ((policyAt wPar 0).getD 1 (0, 0)).1 ∧
    interp (policyAt wPar 0) 1 ≠ 1 := by
  have hpol : policyAt wPar 0 = [(0, 0), (5, 4)] := by
    simp [policyAt, wPar_solve]
  constructor
  · rw [hpol]
    norm_num
  · rw [hpol]
    have h : interp [((0 : ℝ), (0 : ℝ)), (5, 4)] 1 = 4 / 5 := by
      norm_num [interp, interpSeg]
    rw [h]
    norm_num

/-- C3 (amended): for every valid parameter set, every non-terminal period
and every queried cash-on-hand `0 < w` strictly below the period's first
unconstrained endogenous grid point `W_{t,1}`, interpolation over the stored
`(W_t, C_t)` arrays returns `w·(C_{t,1}/W_{t,1})` — the anchor-segment line,
which is strictly below `w` (the hand-to-mouth identity `C_t(w) = w` holds
only approximately, up to the factor `C_{t,1}/W_{t,1} = 1 − a_1/W_{t,1}`). -/
theorem egm_constrained_region_scaled (par : EGMParams)
    (hv : ValidParamSet par) (i : ℕ) (hi : i + 1 < (solve par).length)
    {w : ℝ} (hw0 : 0 < w)
    (hwlt : w < ((policyAt par i).getD 1 (0, 0)).1) :
    interp (policyAt par i) w =
      w * (((policyAt par i).getD 1 (0, 0)).2 /
        ((policyAt par i).getD 1 (0, 0)).1) ∧
    interp (policyAt par i) w < w := by
  have hinv' := policyAt_inv hv hi
  have hl0 : 0 ≤ par.l.getD (i + 1) 0 := l_getD_nonneg hv (i + 1)
  rw [policyAt_step hi] at hwlt ⊢
  simp only [egmStep] at hwlt ⊢
  cases hg : par.grid with
  | nil =>
    exfalso
    rw [hg] at hwlt
    simp at hwlt
    linarith
  | cons a0 rest =>
    have ha0 : 0 < a0 := hv.hgridPos a0 (by rw [hg]; simp)
    have hc0 : 0 ≤ consum par (policyAt par (i + 1)) (par.l.getD (i + 1) 0) a0 :=
      consum_nonneg hv.hβ0.le hv.hR.le
        (emu_nonneg hinv' hv.hR hl0 hv.hY hv.hω ha0)
    rw [hg] at hwlt
    simp only [List.map_cons, List.getD_cons_succ,
      List.getD_cons_zero] at hwlt ⊢
    set c0 := consum par (policyAt par (i + 1)) (par.l.getD (i + 1) 0) a0
      with hc0def
    have hq1 : (0 : ℝ) < a0 + c0 := by linarith
    have hfrac : c0 / (a0 + c0) < 1 := (div_lt_one hq1).mpr (by linarith)
    have hseg : interpSeg (0, 0) (a0 + c0, c0) w = w * (c0 / (a0 + c0)) := by
      simp [interpSeg]
    rw [interp_cons₂, if_pos (Or.inl (le_of_lt hwlt)), hseg]
    exact ⟨rfl, mul_lt_of_lt_one_right hw0 hfrac⟩

/-- C3 witness: the amended statement at `wPar`, period 1, query `w = 1`. -/
theorem egm_constrained_region_scaled_witness :
    interp (policyAt wPar 0) 1 =
      1 * (((policyAt wPar 0).getD 1 (0, 0)).2 /
        ((policyAt wPar 0).getD 1 (0, 0)).1) ∧
    interp (policyAt wPar 0) 1 < 1 :=
  egm_constrained_region_scaled wPar wPar_valid 0
    (by rw [solve_length]; simp [wPar]) (by norm_num)
    (by simp [policyAt, wPar_solve])

/-! ## The concrete Lecture 4 scenario (claim C6) -/

lemma linspace_length (lo hi : ℝ) (n : ℕ) : (linspace lo hi n).length = n := by
  rw [linspace, List.length_map, List.length_range]

lemma linspace_pos (lo hi : ℝ) (n : ℕ) (hlo : 0 < lo) (hle : lo ≤ hi) :
    ∀ x ∈ linspace lo hi n, 0 < x := by
  intro x hx
  simp only [linspace, List.mem_map, List.mem_range] at hx
  obtain ⟨i, hin, rfl⟩ := hx
  rcases Nat.lt_or_ge n 2 with h2 | h2
  · have hi0 : i = 0 := by omega
    subst hi0
    simpa using hlo
  · have hd : (0 : ℝ) < (n : ℝ) - 1 := by
      have h2' : (2 : ℝ) ≤ (n : ℝ) := by exact_mod_cast h2
      linarith
    have hnum : (0 : ℝ) ≤ (hi - lo) * (i : ℝ) :=
      mul_nonneg (by linarith) (Nat.cast_nonneg i)
    have := div_nonneg hnum hd.le
    linarith

lemma linspace_chain (lo hi : ℝ) (n : ℕ) (hlt : lo < hi) :
    List.Chain' (· < ·) (linspace lo hi n) := by
  unfold linspace
  rcases n with _ | m
  · simp
  · rw [List.chain'_map, List.chain'_range_succ]
    intro i him
    have hm : (1 : ℝ) ≤ (m : ℝ) := by
      exact_mod_cast Nat.one_le_iff_ne_zero.mpr (by omega)
    push_cast
    have hd : (0 : ℝ) < (m : ℝ) + 1 - 1 := by linarith
    apply add_lt_add_left
    rw [div_lt_div_iff₀ hd hd]
    have hio : (0 : ℝ) < hi - lo := by linarith
    nlinarith

lemma scenarioPar_valid (Y ω : List ℝ) (hY7 : Y.length = 7)
    (hω7 : ω.length = 7) (hY : ∀ y ∈ Y, 0 < y) (hω : ∀ x ∈ ω, 0 ≤ x)
    (hωs : ω.sum = 1) : ValidParamSet (scenarioPar Y ω) := by
  refine ⟨?_, ?_, ?_, ?_, ?_, ?_, ?_, ?_, ?_, ?_, ?_, ?_, ?_⟩
  · norm_num [scenarioPar]
  · norm_num [scenarioPar]
  · norm_num [scenarioPar]
  · norm_num [scenarioPar]
  · norm_num [scenarioPar]
  · norm_num [scenarioPar]
  · intro x hx
    simp only [scenarioPar, List.mem_cons, List.not_mem_nil, or_false] at hx
    rcases hx with h | h | h | h | h | h <;> simp [h]
  · simp only [scenarioPar]
    omega
  · simp only [scenarioPar]
    exact hY
  · simp only [scenarioPar]
    exact hω
  · simp only [scenarioPar]
    exact hωs
  · simp only [scenarioPar]
    exact linspace_chain _ _ _ (by norm_num)
  · simp only [scenarioPar]
    exact linspace_pos _ _ _ (by norm_num) (by norm_num)

lemma terminal_interp_id {par : EGMParams} (hv : ValidParamSet par)
    (hne : par.grid ≠ []) : ∀ w : ℝ, interp (terminalPolicy par) w = w := by
  intro w
  have hW := (terminalPolicy_inv hv).chainW
  cases hg : par.grid with
  | nil => exact absurd hg hne
  | cons g0 rest =>
    have hform : terminalPolicy par =
        (0, 0) :: (g0, g0) :: rest.map (fun g => (g, g)) := by
      simp [terminalPolicy, hg]
    rw [hform] at hW ⊢
    apply interp_id _ _ _ hW
    intro x hx
    rcases List.mem_cons.mp hx with h | h
    · rw [h]
    · rcases List.mem_cons.mp h with h' | h'
      · rw [h']
      · obtain ⟨g, _, rfl⟩ := List.mem_map.mp h'
        rfl

lemma egmStep_interp_lt {par : EGMParams} (hv : ValidParamSet par)
    {pol : List (ℝ × ℝ)} {lnext : ℝ} (hl : 0 ≤ lnext)
    (hinv : PolicyInv par pol) (hne : par.grid ≠ []) {w : ℝ} (hw : 0 < w) :
    interp (egmStep par pol lnext) w < w := by
  have hW := (egmStep_inv hv hl hinv).chainW
  cases hg : par.grid with
  | nil => exact absurd hg hne
  | cons a0 rest =>
    have hform : egmStep par pol lnext =
        (0, 0) :: (a0 + consum par pol lnext a0, consum par pol lnext a0) ::
          rest.map (fun a => (a + consum par pol lnext a, consum par pol lnext a)) := by
      simp [egmStep, hg]
    have hgrid' : List.Chain' (· < ·) (a0 :: rest) := by rw [← hg]; exact hv.hgrid
    have ha0 : 0 < a0 := hv.hgridPos a0 (by rw [hg]; simp)
    rw [hform] at hW ⊢
    apply interp_lt_id _ _ _ hW ?_ (by norm_num) w (by simpa using hw)
    refine List.chain'_cons'.mpr ⟨?_, ?_⟩
    · intro y hy
      have hy2 : (a0 + consum par pol lnext a0, consum par pol lnext a0) = y := by
        simpa using hy
      rw [← hy2]
      simp only []
      linarith
    · have := chain'_map_rel
        (fun a => ((a + consum par pol lnext a, consum par pol lnext a) : ℝ × ℝ))
        (fun u v : ℝ × ℝ => v.2 - u.2 < v.1 - u.1) (a0 :: rest) hgrid'
        (fun a b hma hmb hab => by simp only []; linarith)
      simpa using this

lemma scenY_pos : ∀ y ∈ scenY, (0 : ℝ) < y := by
  intro y hy
  rw [List.eq_of_mem_replicate hy]
  norm_num

lemma scenω_nonneg : ∀ x ∈ scenω, (0 : ℝ) ≤ x := by
  intro x hx
  rw [List.eq_of_mem_replicate hx]
  norm_num

lemma scenω_sum : scenω.sum = 1 := by
  rw [show scenω = List.replicate 7 (1 / 7 : ℝ) from rfl, List.sum_replicate]
  norm_num

/-- C6 counterexample: at a concrete 7-node quadrature instantiation of the
scenario (`T = 6`, `R = 1.2`, `β = 1/R`, `ρ = 2`, labor `[1,1,1,1,0,0]`,
grid `linspace(10e-6, 5, 1000)`), period 1's policy curve is NOT strictly
below period 6's at every equal level of cash-on-hand: at `w = 0` the two
curves coincide (both pass through the prepended anchor `(0, 0)`). -/
theorem egm_scenario_equal_at_zero :
    ¬ (interp ((solve (scenarioPar scenY scenω)).getD 0 []) 0 <
        interp ((solve (scenarioPar scenY scenω)).getD 5 []) 0) := by
  have hv := scenarioPar_valid scenY scenω rfl rfl scenY_pos scenω_nonneg
    scenω_sum
  have hlen6 : (solve (scenarioPar scenY scenω)).length = 6 := by
    rw [solve_length]
    simp [scenarioPar]
  have hi0 : 0 < (solve (scenarioPar scenY scenω)).length := by
    rw [hlen6]; norm_num
  have hi5 : 5 < (solve (scenarioPar scenY scenω)).length := by
    rw [hlen6]; norm_num
  have h0 := policyAt_inv hv hi0
  have h5 := policyAt_inv hv hi5
  have e0 : interp (policyAt (scenarioPar scenY scenω) 0) 0 = 0 :=
    interp_zero _ h0.head h0.chainW
  have e5 : interp (policyAt (scenarioPar scenY scenω) 5) 0 = 0 :=
    interp_zero _ h5.head h5.chainW
  show ¬ (interp (policyAt (scenarioPar scenY scenω) 0) 0 <
    interp (policyAt (scenarioPar scenY scenω) 5) 0)
  rw [e0, e5]
  exact lt_irrefl 0

/-- C6 (amended): for every 7-node quadrature with positive nodes and
non-negative normalized weights, the Lecture 4 scenario solves to exactly 6
`(grid, policy)` pairs, each of length `gridsize_a + 1 = 1001`; period 6's
policy is exactly the identity on its grid; and period 1's interpolated
policy lies strictly below period 6's at every POSITIVE cash-on-hand, the
two curves coinciding at the anchor `w = 0` (which is why the original
"at every equal level" fails). -/
theorem egm_scenario_properties (Y ω : List ℝ) (hY7 : Y.length = 7)
    (hω7 : ω.length = 7) (hY : ∀ y ∈ Y, 0 < y) (hω : ∀ x ∈ ω, 0 ≤ x)
    (hωs : ω.sum = 1) :
    (solve (scenarioPar Y ω)).length = 6 ∧
    (∀ pol ∈ solve (scenarioPar Y ω), pol.length = 1000 + 1) ∧
    (∀ p ∈ (solve (scenarioPar Y ω)).getD 5 [], p.2 = p.1) ∧
    (∀ w : ℝ, 0 < w →
      interp ((solve (scenarioPar Y ω)).getD 0 []) w <
        interp ((solve (scenarioPar Y ω)).getD 5 []) w) ∧
    interp ((solve (scenarioPar Y ω)).getD 0 []) 0 =
      interp ((solve (scenarioPar Y ω)).getD 5 []) 0 := by
  have hv := scenarioPar_valid Y ω hY7 hω7 hY hω hωs
  have hgr : (scenarioPar Y ω).grid = linspace (10e-6) 5 1000 := by
    simp only [scenarioPar]
  have hne : (scenarioPar Y ω).grid ≠ [] := by
    intro h
    have hlen : (scenarioPar Y ω).grid.length = 1000 := by
      rw [hgr, linspace_length]
    rw [h] at hlen
    simp at hlen
  have hlen6 : (solve (scenarioPar Y ω)).length = 6 := by
    rw [solve_length]
    simp [scenarioPar]
  have hlast : (solve (scenarioPar Y ω)).getD 5 [] =
      terminalPolicy (scenarioPar Y ω) := by
    have h5 : ((scenarioPar Y ω).l.drop 1).length = 5 := by simp [scenarioPar]
    have h := solveAux_getD_last (scenarioPar Y ω) ((scenarioPar Y ω).l.drop 1)
    rw [h5] at h
    exact h
  have htermid : ∀ w : ℝ, interp (terminalPolicy (scenarioPar Y ω)) w = w :=
    terminal_interp_id hv hne
  have hi1 : 1 < (solve (scenarioPar Y ω)).length := by rw [hlen6]; norm_num
  have hi0 : 0 < (solve (scenarioPar Y ω)).length := by rw [hlen6]; norm_num
  refine ⟨hlen6, ?_, ?_, ?_, ?_⟩
  · intro pol hpol
    have hl := (solve_mem_inv hv pol hpol).len
    rw [hgr, linspace_length] at hl
    exact hl
  · rw [hlast]
    intro p hp
    simp only [terminalPolicy, List.mem_cons, List.mem_map] at hp
    rcases hp with h | ⟨g, _, h⟩
    · rw [h]
    · rw [← h]
  · intro w hw
    rw [hlast, htermid w]
    have hstep : (solve (scenarioPar Y ω)).getD 0 [] =
        egmStep (scenarioPar Y ω) (policyAt (scenarioPar Y ω) 1)
          ((scenarioPar Y ω).l.getD 1 0) := by
      show policyAt (scenarioPar Y ω) 0 = _
      exact policyAt_step hi1
    rw [hstep]
    exact egmStep_interp_lt hv (l_getD_nonneg hv 1) (policyAt_inv hv hi1)
      hne hw
  · have h0 := policyAt_inv hv hi0
    have e0 : interp (policyAt (scenarioPar Y ω) 0) 0 = 0 :=
      interp_zero _ h0.head h0.chainW
    rw [hlast, htermid 0]
    exact e0

/-- C6 witness: the amended scenario facts at the concrete 7-node quadrature
`(scenY, scenω)`, instantiated at period 1's policy and cash-on-hand `1`. -/
theorem egm_scenario_properties_witness :
    (solve (scenarioPar scenY scenω)).length = 6 ∧
    ((solve (scenarioPar scenY scenω)).getD 0 []).length = 1000 + 1 ∧
    interp ((solve (scenarioPar scenY scenω)).getD 0 []) 1 <
      interp ((solve (scenarioPar scenY scenω)).getD 5 []) 1 ∧
    interp ((solve (scenarioPar scenY scenω)).getD 0 []) 0 =
      interp ((solve (scenarioPar scenY scenω)).getD 5 []) 0 :=
  have h := egm_scenario_properties scenY scenω rfl rfl scenY_pos scenω_nonneg
    scenω_sum
  ⟨h.1, h.2.1 _ (policyAt_mem (lt_of_lt_of_eq (by norm_num) h.1.symm)),
    h.2.2.2.1 1 one_pos, h.2.2.2.2⟩

/-! ## Deterministic Euler growth (claim C9) and the PAYGO budget (claim C10) -/

/-- C9: with a degenerate one-node, weight-one quadrature (no income risk),
the EGM solver reproduces exactly the closed-form deterministic CRRA Euler
growth rule of `solve_paygo`: (a) the source's closed-form consumption path
`C[t] = C1·(β(1+r))^(t/ρ)` is precisely the path generated by first-period
consumption `C1` and the growth rule `C_{t+1} = C_t·(β(1+r))^(1/ρ)`; and
(b) for every valid single-node parameter set, every non-terminal period and
every grid point, next period's interpolated consumption at the realized
cash-on-hand `y·l_{t+1} + R·a_j` equals current consumption times the same
factor `(β·R)^(1/ρ)` — exact equality, with no numerical tolerance. -/
theorem egm_deterministic_euler_growth :
    (∀ (p : PaygoPar) (K : ℝ) (t : ℕ), 0 < p.β * (1 + paygo_r p K) →
      paygo_C p K t =
        eulerPath (paygo_C1 p K) (p.β * (1 + paygo_r p K)) p.ρ t) ∧
    (∀ (par : EGMParams) (y : ℝ), ValidParamSet par → par.Y = [y] →
      par.ω = [1] → ∀ i j : ℕ, i + 1 < (solve par).length →
      j < par.grid.length →
      interp (policyAt par (i + 1))
          (y * par.l.getD (i + 1) 0 + par.R * par.grid.getD j 0) =
        ((policyAt par i).getD (j + 1) (0, 0)).2 *
          (par.β * par.R) ^ (1 / par.ρ)) := by
  constructor
  · intro p K t hg
    induction t with
    | zero => simp [paygo_C, eulerPath]
    | succ t ih =>
      rw [eulerPath, ← ih]
      unfold paygo_C
      have hcast : ((t + 1 : ℕ) : ℝ) / p.ρ = (t : ℝ) / p.ρ + 1 / p.ρ := by
        push_cast
        rw [div_add_div_same]
      rw [hcast, Real.rpow_add hg, mul_assoc]
  · intro par y hvp hYe hωe i j hi hj
    have hinv' := policyAt_inv hvp hi
    have hl0 := l_getD_nonneg hvp (i + 1)
    have ha : 0 < par.grid.getD j 0 := by
      rw [List.getD_eq_getElem _ _ hj]
      exact hvp.hgridPos _ (List.getElem_mem hj)
    have hy : 0 < y := hvp.hY y (by rw [hYe]; simp)
    have hne : par.grid ≠ [] := by
      intro h
      rw [h] at hj
      simp at hj
    have hw' : 0 < y * par.l.getD (i + 1) 0 + par.R * par.grid.getD j 0 := by
      have h1 : 0 ≤ y * par.l.getD (i + 1) 0 := mul_nonneg hy.le hl0
      have h2 : 0 < par.R * par.grid.getD j 0 := mul_pos hvp.hR ha
      linarith
    have hvpos : 0 < interp (policyAt par (i + 1))
        (y * par.l.getD (i + 1) 0 + par.R * par.grid.getD j 0) :=
      policyInv_interp_pos hinv' hne hw'
    have hsnd : ((policyAt par i).getD (j + 1) (0, 0)).2 =
        consum par (policyAt par (i + 1)) (par.l.getD (i + 1) 0)
          (par.grid.getD j 0) := by
      rw [policyAt_step hi]
      simp only [egmStep, List.getD_cons_succ]
      rw [List.getD_eq_getElem _ _ (by rw [List.length_map]; exact hj),
        List.getElem_map]
      rw [List.getD_eq_getElem _ _ hj]
    have hemu : emu par (policyAt par (i + 1)) (par.l.getD (i + 1) 0)
        (par.grid.getD j 0) =
        interp (policyAt par (i + 1))
          (y * par.l.getD (i + 1) 0 + par.R * par.grid.getD j 0) ^
          (-par.ρ) := by
      unfold emu
      rw [hYe, hωe]
      simp
    have hb : 0 < par.β * par.R := mul_pos hvp.hβ0 hvp.hR
    rw [hsnd]
    unfold consum
    rw [hemu]
    rw [Real.mul_rpow hb.le (Real.rpow_nonneg hvpos.le _),
      ← Real.rpow_mul hvpos.le]
    have hexp : -par.ρ * -(1 / par.ρ) = 1 := by
      rw [neg_mul_neg, mul_one_div]
      exact div_self hvp.hρ.ne'
    rw [hexp, Real.rpow_one,
      mul_comm ((par.β * par.R) ^ (-(1 / par.ρ))) _, mul_assoc,
      ← Real.rpow_add hb, neg_add_cancel, Real.rpow_zero, mul_one]

/-- C9 witness: conjunct (a) at the concrete PAYGO parameter set `payP` with
capital guess `1`, and conjunct (b) at the concrete single-node EGM
parameter set `wPar`, period 1, grid point 0. -/
theorem egm_deterministic_euler_growth_witness :
    paygo_C payP 1 0 =
      eulerPath (paygo_C1 payP 1) (payP.β * (1 + paygo_r payP 1)) payP.ρ 0 ∧
    interp (policyAt wPar (0 + 1))
        (1 * wPar.l.getD (0 + 1) 0 + wPar.R * wPar.grid.getD 0 0) =
      ((policyAt wPar 0).getD (0 + 1) (0, 0)).2 *
        (wPar.β * wPar.R) ^ (1 / wPar.ρ) :=
  ⟨egm_deterministic_euler_growth.1 payP 1 0
      (by norm_num [paygo_r, payP, Real.one_rpow]),
   egm_deterministic_euler_growth.2 wPar 1 wPar_valid rfl rfl 0 0
      (by rw [solve_length]; simp [wPar]) (by simp [wPar])⟩

/-- C10: for every parameter set and capital guess, `solve_paygo`'s savings
path satisfies the household budget identity
`A[t] = (1−τ)·w·l[t] + (1−l[t])·b + (1+r)·A[t−1] − C[t]` at every period
`t ≥ 1` (in particular for `1 ≤ t ≤ T−1`), while the first period omits the
pension-benefit term: `A[0] = (1−τ)·w·l[0] − C[0]`; hence the full budget
identity at `t = 0` (with zero initial assets) holds exactly when `l[0] = 1`
or the benefit term `(1−l[0])·b` vanishes. -/
theorem paygo_budget_identity (p : PaygoPar) (K : ℝ) (t : ℕ)
    (_ht : 1 ≤ t + 1 ∧ t + 1 ≤ p.T - 1) :
    paygo_A p K (t + 1) =
      (1 - p.τ) * paygo_w p K * p.l.getD (t + 1) 0 +
        (1 - p.l.getD (t + 1) 0) * paygo_b p K +
        (1 + paygo_r p K) * paygo_A p K t - paygo_C p K (t + 1) ∧
    paygo_A p K 0 = (1 - p.τ) * paygo_w p K * p.l.getD 0 0 - paygo_C p K 0 ∧
    (paygo_A p K 0 =
        (1 - p.τ) * paygo_w p K * p.l.getD 0 0 +
          (1 - p.l.getD 0 0) * paygo_b p K + (1 + paygo_r p K) * 0 -
          paygo_C p K 0 ↔
      p.l.getD 0 0 = 1 ∨ (1 - p.l.getD 0 0) * paygo_b p K = 0) := by
  refine ⟨rfl, rfl, ?_⟩
  have hA0 : paygo_A p K 0 =
      (1 - p.τ) * paygo_w p K * p.l.getD 0 0 - paygo_C p K 0 := rfl
  rw [hA0]
  simp only [mul_zero, add_zero]
  constructor
  · intro h
    right
    linarith
  · intro h
    have hB : (1 - p.l.getD 0 0) * paygo_b p K = 0 := by
      rcases h with h | h
      · rw [h]
        ring
      · exact h
    rw [hB]
    ring

/-- C10 witness: the budget identity at the concrete PAYGO parameter set
`payP`, capital guess `1`, period `t + 1 = 1`. -/
theorem paygo_budget_identity_witness :
    paygo_A payP 1 (0 + 1) =
      (1 - payP.τ) * paygo_w payP 1 * payP.l.getD (0 + 1) 0 +
        (1 - payP.l.getD (0 + 1) 0) * paygo_b payP 1 +
        (1 + paygo_r payP 1) * paygo_A payP 1 0 - paygo_C payP 1 (0 + 1) ∧
    paygo_A payP 1 0 =
      (1 - payP.τ) * paygo_w payP 1 * payP.l.getD 0 0 - paygo_C payP 1 0 ∧
    (paygo_A payP 1 0 =
        (1 - payP.τ) * paygo_w payP 1 * payP.l.getD 0 0 +
          (1 - payP.l.getD 0 0) * paygo_b payP 1 + (1 + paygo_r payP 1) * 0 -
          paygo_C payP 1 0 ↔
      payP.l.getD 0 0 = 1 ∨ (1 - payP.l.getD 0 0) * paygo_b payP 1 = 0) :=
  paygo_budget_identity payP 1 0 (by norm_num [payP])

end

end CompMacro
